import Mathlib

/-!
Shallow embedding of the material-scattering core of a Monte Carlo path
tracer (`src/interactions.h`): the cosine-weighted hemisphere sampler
`calculateRandomDirectionInHemisphere`, the material scatter step
`scatterRay`, and the path-liveness predicate `isTerminated`.

Machine `float` arithmetic is modelled by exact real arithmetic over `ℝ`;
`glm` vector primitives (`dot`, `cross`, `normalize`, `reflect`,
`refract`) are embedded by their documented componentwise semantics.  The
mutable `thrust::default_random_engine` with its `uniform_real_distribution`
is embedded as an explicit stream of draws (a `List ℝ`): each call to
`u01(rng)` consumes the head of the stream.
-/

/-- Three-component vector over the reals, standing for `glm::vec3`. -/
@[ext]
structure Vec3 where
  x : ℝ
  y : ℝ
  z : ℝ

/-- Componentwise vector addition. -/
def addV (a b : Vec3) : Vec3 := ⟨a.x + b.x, a.y + b.y, a.z + b.z⟩

/-- Componentwise vector subtraction. -/
def subV (a b : Vec3) : Vec3 := ⟨a.x - b.x, a.y - b.y, a.z - b.z⟩

/-- Scalar-vector multiplication `s * v`. -/
def smulV (s : ℝ) (v : Vec3) : Vec3 := ⟨s * v.x, s * v.y, s * v.z⟩

/-- Componentwise (Hadamard) product, `glm`'s `vec3 * vec3`. -/
def cmulV (a b : Vec3) : Vec3 := ⟨a.x * b.x, a.y * b.y, a.z * b.z⟩

/-- Componentwise division of a vector by a scalar. -/
noncomputable def sdivV (v : Vec3) (s : ℝ) : Vec3 := ⟨v.x / s, v.y / s, v.z / s⟩

/-- Euclidean inner product, `glm::dot`. -/
def dotV (a b : Vec3) : ℝ := a.x * b.x + a.y * b.y + a.z * b.z

/-- Cross product, `glm::cross`. -/
def crossV (a b : Vec3) : Vec3 :=
  ⟨a.y * b.z - a.z * b.y, a.z * b.x - a.x * b.z, a.x * b.y - a.y * b.x⟩

/-- Normalization `v / |v|`, `glm::normalize` (`v * inversesqrt(dot(v, v))`). -/
noncomputable def normalizeV (v : Vec3) : Vec3 :=
  smulV (1 / Real.sqrt (dotV v v)) v

/-- Mirror reflection, `glm::reflect(i, n) = i - 2 * dot(n, i) * n`. -/
def reflectV (i n : Vec3) : Vec3 := subV i (smulV (2 * dotV n i) n)

/-- Snell refraction, `glm::refract(i, n, eta)`: with `d = dot(n, i)` and
`k = 1 - eta^2 * (1 - d^2)`, returns `0` when `k < 0` and
`eta * i - (eta * d + sqrt k) * n` otherwise. -/
noncomputable def refractV (i n : Vec3) (eta : ℝ) : Vec3 :=
  let d := dotV n i
  let k := 1 - eta * eta * (1 - d * d)
  if k < 0 then ⟨0, 0, 0⟩ else subV (smulV eta i) (smulV (eta * d + Real.sqrt k) n)

/-- Ray with an origin and a direction. -/
structure Ray where
  origin : Vec3
  direction : Vec3

/-- One in-flight path sample: its current ray, its accumulated throughput
`color`, and its remaining bounce budget.  (Modelled from the spec: the
`PathSegment` struct itself lives in a header outside the given source;
the spec lists exactly these fields.) -/
structure PathSegment where
  ray : Ray
  color : Vec3
  remainingBounces : Int

/-- Specular part of a material: the tint applied to reflected light.
(Modelled from the spec: the `Material` struct lives outside the given
source; the spec names `specular.color`.) -/
structure SpecularDesc where
  color : Vec3

/-- Material description: diffuse albedo, specular tint, the two scattering
flags (floats in the source, hence `ℝ` here) and the index of refraction.
(Modelled from the spec: the struct itself lives outside the given source.) -/
structure Material where
  color : Vec3
  specular : SpecularDesc
  hasReflective : ℝ
  hasRefractive : ℝ
  indexOfRefraction : ℝ

/-- One draw from the uniform-[0,1) stream: `u01(rng)` returns the head of
the stream and advances the engine to the tail. -/
def drawU (rng : List ℝ) : ℝ × List ℝ := (rng.headD 0, rng.tail)

/-- Direction guaranteed not parallel to `normal`: the axis-vector choice
made at the top of `calculateRandomDirectionInHemisphere`, testing each
component against `SQRT_OF_ONE_THIRD`. -/
noncomputable def directionNotNormalOf (normal : Vec3) : Vec3 :=
  if |normal.x| < Real.sqrt (1 / 3) then ⟨1, 0, 0⟩
  else if |normal.y| < Real.sqrt (1 / 3) then ⟨0, 1, 0⟩
  else ⟨0, 0, 1⟩

/-- Deterministic core of `calculateRandomDirectionInHemisphere`, as a
function of the two uniform draws `r1` (for `up`) and `r2` (for `around`). -/
noncomputable def hemisphereDir (normal : Vec3) (r1 r2 : ℝ) : Vec3 :=
  let up := Real.sqrt r1
  let over := Real.sqrt (1 - up * up)
  let around := r2 * (2 * Real.pi)
  let perpendicularDirection1 := normalizeV (crossV normal (directionNotNormalOf normal))
  let perpendicularDirection2 := normalizeV (crossV normal perpendicularDirection1)
  addV (addV (smulV up normal) (smulV (Real.cos around * over) perpendicularDirection1))
    (smulV (Real.sin around * over) perpendicularDirection2)

/-- Cosine-weighted random direction in the hemisphere about `normal`
(`calculateRandomDirectionInHemisphere`): draws two uniforms from the
stream, first for `up = sqrt(u01)`, then for `around = u01 * TWO_PI`. -/
noncomputable def calculateRandomDirectionInHemisphere (normal : Vec3) (rng : List ℝ) :
    Vec3 × List ℝ :=
  let d1 := drawU rng
  let d2 := drawU d1.2
  (hemisphereDir normal d1.1 d2.1, d2.2)

/-- Working normal of the dielectric branch: flipped when the ray exits the
medium (`dot(direction, normal) > 0`). -/
noncomputable def workingNormal (rayDir normal : Vec3) : Vec3 :=
  if dotV rayDir normal > 0 then smulV (-1) normal else normal

/-- Relative index of refraction `niOvernt` of the dielectric branch:
`indexOfRefraction` when exiting, its reciprocal when entering. -/
noncomputable def niOverNt (rayDir normal : Vec3) (ior : ℝ) : ℝ :=
  if dotV rayDir normal > 0 then ior else 1 / ior

/-- The `cosine` of the dielectric branch: `dot(direction, refractNormal)`. -/
noncomputable def dielCosine (rayDir normal : Vec3) : ℝ :=
  dotV rayDir (workingNormal rayDir normal)

/-- Refraction discriminant `1 - niOvernt^2 * (1 - cosine^2)`. -/
noncomputable def dielDiscriminant (rayDir normal : Vec3) (ior : ℝ) : ℝ :=
  let e := niOverNt rayDir normal ior
  let c := dielCosine rayDir normal
  1 - e * e * (1 - c * c)

/-- Schlick reflectance of the dielectric branch:
`r0 + (1 - r0) * (1 - max(0, cosine))^5` with `r0 = ((1-eta)/(1+eta))^2`. -/
noncomputable def schlickReflectProb (rayDir normal : Vec3) (ior : ℝ) : ℝ :=
  let e := niOverNt rayDir normal ior
  let r0 := ((1 - e) / (1 + e)) * ((1 - e) / (1 + e))
  r0 + (1 - r0) * (1 - max 0 (dielCosine rayDir normal)) ^ 5

/-- The material scatter step `scatterRay`: takes the current path segment,
the hit point `intersect`, the surface `normal`, the material and the
random stream; returns the updated segment together with the remaining
stream.  A direct transcription of the three flag-dispatched branches of
the source. -/
noncomputable def scatterRay (pathSegment : PathSegment) (intersect normal : Vec3)
    (m : Material) (rng : List ℝ) : PathSegment × List ℝ :=
  if m.hasReflective = 0 ∧ m.hasRefractive = 0 then
    let s := calculateRandomDirectionInHemisphere normal rng
    let rayDirection := s.1
    let nDotr := |dotV normal rayDirection|
    let pdf := nDotr / Real.pi
    let f := sdivV m.color Real.pi
    if pdf = 0 then
      ({ pathSegment with remainingBounces := 0, color := ⟨0, 0, 0⟩ }, s.2)
    else
      ({ pathSegment with
          color := cmulV pathSegment.color (sdivV (smulV nDotr f) pdf)
          remainingBounces := pathSegment.remainingBounces - 1
          ray := { direction := rayDirection
                   origin := addV intersect (smulV 0.0001 normal) } }, s.2)
  else if m.hasReflective = 1 ∧ m.hasRefractive = 0 then
    ({ pathSegment with
        color := cmulV pathSegment.color m.specular.color
        remainingBounces := pathSegment.remainingBounces - 1
        ray := { direction := reflectV pathSegment.ray.direction normal
                 origin := addV intersect (smulV 0.0001 normal) } }, rng)
  else if m.hasReflective = 1 ∧ m.hasRefractive = 1 then
    let refractNormal := workingNormal pathSegment.ray.direction normal
    let eta := niOverNt pathSegment.ray.direction normal m.indexOfRefraction
    if dielDiscriminant pathSegment.ray.direction normal m.indexOfRefraction > 0 then
      let u := drawU rng
      if u.1 > schlickReflectProb pathSegment.ray.direction normal m.indexOfRefraction / 1.5 then
        ({ pathSegment with
            color := cmulV pathSegment.color m.specular.color
            remainingBounces := pathSegment.remainingBounces - 1
            ray := { direction := reflectV pathSegment.ray.direction refractNormal
                     origin := addV intersect (smulV 0.01 refractNormal) } }, u.2)
      else
        let refractedDir := refractV pathSegment.ray.direction refractNormal eta
        ({ pathSegment with
            color := cmulV pathSegment.color m.specular.color
            remainingBounces := pathSegment.remainingBounces - 1
            ray := { direction := normalizeV refractedDir
                     origin := addV intersect (smulV 0.01 refractedDir) } }, u.2)
    else
      ({ pathSegment with
          color := ⟨0, 0, 0⟩
          remainingBounces := pathSegment.remainingBounces - 1
          ray := { direction := reflectV pathSegment.ray.direction refractNormal
                   origin := addV intersect (smulV 0.01 refractNormal) } }, rng)
  else (pathSegment, rng)

/-- The liveness predicate of the compaction stage (the `isTerminated`
functor): a segment is kept while `remainingBounces > 0`.  The source
operator takes the segment by const reference, so it cannot modify it;
the embedding is a pure function. -/
def isTerminated (pathSegment : PathSegment) : Bool :=
  decide (0 < pathSegment.remainingBounces)

/-- Sample ray used to build concrete segments. -/
def ray0 : Ray := { origin := ⟨0, 0, 0⟩, direction := ⟨0, 0, -1⟩ }

/-- Sample path segment. -/
def seg0 : PathSegment := { ray := ray0, color := ⟨1, 1, 1⟩, remainingBounces := 5 }

/-- Sample diffuse material. -/
def mDiffuse : Material :=
  { color := ⟨0.8, 0.8, 0.8⟩, specular := ⟨⟨1, 1, 1⟩⟩
    hasReflective := 0, hasRefractive := 0, indexOfRefraction := 1 }

/-- Sample perfect-mirror material. -/
def mMirror : Material :=
  { color := ⟨0, 0, 0⟩, specular := ⟨⟨0.9, 0.9, 0.9⟩⟩
    hasReflective := 1, hasRefractive := 0, indexOfRefraction := 1 }

/-- Sample dielectric material (glass, index 1.5). -/
def mGlass : Material :=
  { color := ⟨0, 0, 0⟩, specular := ⟨⟨1, 1, 1⟩⟩
    hasReflective := 1, hasRefractive := 1, indexOfRefraction := 1.5 }

/-- Sample refractive-only material, a flag combination outside the three
dispatched branches. -/
def mBadFlags : Material :=
  { color := ⟨0.5, 0.5, 0.5⟩, specular := ⟨⟨1, 1, 1⟩⟩
    hasReflective := 0, hasRefractive := 1, indexOfRefraction := 1.5 }

/-- C7: the path-termination predicate returns true exactly when
`remainingBounces` is strictly positive; in particular it is true at 1,
false at 0 and false at every negative value, and (being a pure function
of a const segment) it does not modify the segment. -/
theorem isTerminated_iff_positive_bounces :
    (∀ pathSegment : PathSegment,
      isTerminated pathSegment = true ↔ 0 < pathSegment.remainingBounces) ∧
    isTerminated { seg0 with remainingBounces := 1 } = true ∧
    isTerminated { seg0 with remainingBounces := 0 } = false ∧
    isTerminated { seg0 with remainingBounces := -7 } = false := by
  refine ⟨fun ps => ?_, rfl, rfl, rfl⟩
  simp [isTerminated]

/-- Branch reduction: no flag combination matches, nothing happens. -/
theorem scatterRay_nomatch_eq
    (ps : PathSegment) (intersect normal : Vec3) (m : Material) (rng : List ℝ)
    (h1 : ¬(m.hasReflective = 0 ∧ m.hasRefractive = 0))
    (h2 : ¬(m.hasReflective = 1 ∧ m.hasRefractive = 0))
    (h3 : ¬(m.hasReflective = 1 ∧ m.hasRefractive = 1)) :
    scatterRay ps intersect normal m rng = (ps, rng) := by
  rw [scatterRay, if_neg h1, if_neg h2, if_neg h3]

/-- C8: when the material's flag pair matches none of the three dispatched
combinations, `scatterRay` performs no mutation at all: the segment and
the random stream are returned unchanged. -/
theorem scatterRay_no_flag_match_no_mutation
    (ps : PathSegment) (intersect normal : Vec3) (m : Material) (rng : List ℝ)
    (h1 : ¬(m.hasReflective = 0 ∧ m.hasRefractive = 0))
    (h2 : ¬(m.hasReflective = 1 ∧ m.hasRefractive = 0))
    (h3 : ¬(m.hasReflective = 1 ∧ m.hasRefractive = 1)) :
    scatterRay ps intersect normal m rng = (ps, rng) :=
  scatterRay_nomatch_eq ps intersect normal m rng h1 h2 h3

/-- Witness for C8: the refractive-only flag pair (0,1) matches no branch
and leaves the segment untouched. -/
theorem scatterRay_no_flag_match_no_mutation_witness :
    scatterRay seg0 ⟨0, 0, 0⟩ ⟨0, 0, 1⟩ mBadFlags [0, 0] = (seg0, [0, 0]) :=
  scatterRay_no_flag_match_no_mutation seg0 ⟨0, 0, 0⟩ ⟨0, 0, 1⟩ mBadFlags [0, 0]
    (by simp [mBadFlags]) (by simp [mBadFlags]) (by simp [mBadFlags])

/-- Branch reduction: the perfect-mirror branch of `scatterRay`. -/
theorem scatterRay_mirror_eq
    (ps : PathSegment) (intersect normal : Vec3) (m : Material) (rng : List ℝ)
    (hRefl : m.hasReflective = 1) (hRefr : m.hasRefractive = 0) :
    scatterRay ps intersect normal m rng =
      ({ ps with
          color := cmulV ps.color m.specular.color
          remainingBounces := ps.remainingBounces - 1
          ray := { direction := reflectV ps.ray.direction normal
                   origin := addV intersect (smulV 0.0001 normal) } }, rng) := by
  unfold scatterRay
  rw [if_neg (by simp [hRefl]), if_pos ⟨hRefl, hRefr⟩]

/-- Branch reduction: the total-internal-reflection branch of `scatterRay`. -/
theorem scatterRay_tir_eq
    (ps : PathSegment) (intersect normal : Vec3) (m : Material) (rng : List ℝ)
    (hRefl : m.hasReflective = 1) (hRefr : m.hasRefractive = 1)
    (hdisc : dielDiscriminant ps.ray.direction normal m.indexOfRefraction ≤ 0) :
    scatterRay ps intersect normal m rng =
      ({ ps with
          color := ⟨0, 0, 0⟩
          remainingBounces := ps.remainingBounces - 1
          ray := { direction := reflectV ps.ray.direction (workingNormal ps.ray.direction normal)
                   origin := addV intersect
                     (smulV 0.01 (workingNormal ps.ray.direction normal)) } }, rng) := by
  unfold scatterRay
  rw [if_neg (by simp [hRefl]), if_neg (by simp [hRefr]), if_pos ⟨hRefl, hRefr⟩,
    if_neg (not_lt.mpr hdisc)]

/-- C4: in the perfect-mirror branch (`hasReflective = 1`,
`hasRefractive = 0`) `scatterRay` reflects the incoming direction about the
surface normal, multiplies the throughput componentwise by
`material.specular.color` with no probability division, decrements
`remainingBounces` by exactly 1, and offsets the new origin by
`normal * 1e-4` from the hit point. -/
theorem scatterRay_mirror_branch
    (ps : PathSegment) (intersect normal : Vec3) (m : Material) (rng : List ℝ)
    (hRefl : m.hasReflective = 1) (hRefr : m.hasRefractive = 0) :
    (scatterRay ps intersect normal m rng).1.ray.direction
        = reflectV ps.ray.direction normal ∧
    (scatterRay ps intersect normal m rng).1.color
        = cmulV ps.color m.specular.color ∧
    (scatterRay ps intersect normal m rng).1.remainingBounces
        = ps.remainingBounces - 1 ∧
    (scatterRay ps intersect normal m rng).1.ray.origin
        = addV intersect (smulV 0.0001 normal) := by
  rw [scatterRay_mirror_eq ps intersect normal m rng hRefl hRefr]
  exact ⟨rfl, rfl, rfl, rfl⟩

/-- Witness for C4: incoming direction `(1,-1,0)/sqrt 2` against normal
`(0,1,0)` reflects to `(1,1,0)/sqrt 2`, and the bounce budget drops from 5
to 4. -/
theorem scatterRay_mirror_branch_witness :
    (scatterRay
        { seg0 with
            ray := { origin := ⟨0, 0, 0⟩
                     direction := ⟨1 / Real.sqrt 2, -(1 / Real.sqrt 2), 0⟩ } }
        ⟨0, 0, 0⟩ ⟨0, 1, 0⟩ mMirror []).1.ray.direction
      = ⟨1 / Real.sqrt 2, 1 / Real.sqrt 2, 0⟩ ∧
    (scatterRay
        { seg0 with
            ray := { origin := ⟨0, 0, 0⟩
                     direction := ⟨1 / Real.sqrt 2, -(1 / Real.sqrt 2), 0⟩ } }
        ⟨0, 0, 0⟩ ⟨0, 1, 0⟩ mMirror []).1.remainingBounces = 4 := by
  have h := scatterRay_mirror_branch
    { seg0 with
        ray := { origin := ⟨0, 0, 0⟩
                 direction := ⟨1 / Real.sqrt 2, -(1 / Real.sqrt 2), 0⟩ } }
    ⟨0, 0, 0⟩ ⟨0, 1, 0⟩ mMirror [] rfl rfl
  refine ⟨?_, ?_⟩
  · rw [h.1]
    simp only [reflectV, subV, smulV, dotV]
    ext <;> simp <;> ring_nf
  · rw [h.2.2.1]
    rfl

/-- C3: in the dielectric branch with non-positive refraction discriminant
(total internal reflection), `scatterRay` mirrors the incoming direction
about the working normal (flipped exactly when
`dot(direction, normal) > 0`), zeroes the throughput, decrements
`remainingBounces` by 1, and offsets the new origin from the hit point
along the working normal. -/
theorem scatterRay_total_internal_reflection
    (ps : PathSegment) (intersect normal : Vec3) (m : Material) (rng : List ℝ)
    (hRefl : m.hasReflective = 1) (hRefr : m.hasRefractive = 1)
    (hdisc : dielDiscriminant ps.ray.direction normal m.indexOfRefraction ≤ 0) :
    (scatterRay ps intersect normal m rng).1.ray.direction
        = reflectV ps.ray.direction (workingNormal ps.ray.direction normal) ∧
    (scatterRay ps intersect normal m rng).1.color = ⟨0, 0, 0⟩ ∧
    (scatterRay ps intersect normal m rng).1.remainingBounces
        = ps.remainingBounces - 1 ∧
    (scatterRay ps intersect normal m rng).1.ray.origin
        = addV intersect (smulV 0.01 (workingNormal ps.ray.direction normal)) ∧
    (dotV ps.ray.direction normal > 0 →
        workingNormal ps.ray.direction normal = smulV (-1) normal) ∧
    (¬ dotV ps.ray.direction normal > 0 →
        workingNormal ps.ray.direction normal = normal) := by
  rw [scatterRay_tir_eq ps intersect normal m rng hRefl hRefr hdisc]
  refine ⟨rfl, rfl, rfl, rfl, fun h => ?_, fun h => ?_⟩
  · rw [workingNormal, if_pos h]
  · rw [workingNormal, if_neg h]

/-- Witness for C3: a grazing ray `(1, 0, 1/10)` exiting a glass medium
(normal `(0,0,1)`, index 1.5) hits total internal reflection: the
discriminant is `-491/400 ≤ 0`, the color is zeroed and the direction is
mirrored about the flipped normal. -/
theorem scatterRay_total_internal_reflection_witness :
    (scatterRay
        { seg0 with ray := { origin := ⟨0, 0, 0⟩, direction := ⟨1, 0, 1 / 10⟩ } }
        ⟨0, 0, 0⟩ ⟨0, 0, 1⟩ mGlass []).1.color = ⟨0, 0, 0⟩ ∧
    (scatterRay
        { seg0 with ray := { origin := ⟨0, 0, 0⟩, direction := ⟨1, 0, 1 / 10⟩ } }
        ⟨0, 0, 0⟩ ⟨0, 0, 1⟩ mGlass []).1.ray.direction = ⟨1, 0, -(1 / 10)⟩ := by
  have h := scatterRay_total_internal_reflection
    { seg0 with ray := { origin := ⟨0, 0, 0⟩, direction := ⟨1, 0, 1 / 10⟩ } }
    ⟨0, 0, 0⟩ ⟨0, 0, 1⟩ mGlass [] rfl rfl
    (by norm_num [dielDiscriminant, niOverNt, dielCosine, workingNormal, dotV, smulV, mGlass])
  refine ⟨h.2.1, ?_⟩
  rw [h.1]
  have hw : workingNormal (⟨1, 0, 1 / 10⟩ : Vec3) ⟨0, 0, 1⟩ = ⟨0, 0, -1⟩ := by
    rw [workingNormal, if_pos (by norm_num [dotV])]
    simp [smulV]
  rw [hw]
  simp only [reflectV, subV, smulV, dotV]
  ext <;> simp <;> ring_nf

/-- Branch reduction: the dielectric branch of `scatterRay` with positive
refraction discriminant, as a function of the single uniform draw `u`. -/
theorem scatterRay_diel_fresnel_eq
    (ps : PathSegment) (intersect normal : Vec3) (m : Material) (u : ℝ) (rest : List ℝ)
    (hRefl : m.hasReflective = 1) (hRefr : m.hasRefractive = 1)
    (hdisc : dielDiscriminant ps.ray.direction normal m.indexOfRefraction > 0) :
    scatterRay ps intersect normal m (u :: rest) =
      if u > schlickReflectProb ps.ray.direction normal m.indexOfRefraction / 1.5 then
        ({ ps with
            color := cmulV ps.color m.specular.color
            remainingBounces := ps.remainingBounces - 1
            ray := { direction :=
                       reflectV ps.ray.direction (workingNormal ps.ray.direction normal)
                     origin := addV intersect
                       (smulV 0.01 (workingNormal ps.ray.direction normal)) } }, rest)
      else
        ({ ps with
            color := cmulV ps.color m.specular.color
            remainingBounces := ps.remainingBounces - 1
            ray := { direction :=
                       normalizeV (refractV ps.ray.direction
                         (workingNormal ps.ray.direction normal)
                         (niOverNt ps.ray.direction normal m.indexOfRefraction))
                     origin := addV intersect
                       (smulV 0.01 (refractV ps.ray.direction
                         (workingNormal ps.ray.direction normal)
                         (niOverNt ps.ray.direction normal m.indexOfRefraction))) } }, rest) := by
  unfold scatterRay
  rw [if_neg (by simp [hRefl]), if_neg (by simp [hRefr]), if_pos ⟨hRefl, hRefr⟩,
    if_pos hdisc]
  simp only [drawU, List.headD_cons, List.tail_cons]

/-- C1: in the dielectric branch with positive discriminant, `scatterRay`
computes the Schlick reflectance `r0 + (1-r0)*(1 - max(0,cosine))^5` with
`r0 = ((1-eta)/(1+eta))^2`, consumes exactly one uniform draw `u`, chooses
reflection exactly when `u > reflectProb/1.5` and refraction otherwise,
multiplies the throughput componentwise by `material.specular.color` in
both sub-branches with no probability division, and decrements
`remainingBounces` by exactly 1. -/
theorem scatterRay_dielectric_schlick_split
    (ps : PathSegment) (intersect normal : Vec3) (m : Material) (u : ℝ) (rest : List ℝ)
    (hRefl : m.hasReflective = 1) (hRefr : m.hasRefractive = 1)
    (hdisc : dielDiscriminant ps.ray.direction normal m.indexOfRefraction > 0) :
    (scatterRay ps intersect normal m (u :: rest)).2 = rest ∧
    (scatterRay ps intersect normal m (u :: rest)).1.color
        = cmulV ps.color m.specular.color ∧
    (scatterRay ps intersect normal m (u :: rest)).1.remainingBounces
        = ps.remainingBounces - 1 ∧
    schlickReflectProb ps.ray.direction normal m.indexOfRefraction
        = ((1 - niOverNt ps.ray.direction normal m.indexOfRefraction)
              / (1 + niOverNt ps.ray.direction normal m.indexOfRefraction)) ^ 2
          + (1 - ((1 - niOverNt ps.ray.direction normal m.indexOfRefraction)
              / (1 + niOverNt ps.ray.direction normal m.indexOfRefraction)) ^ 2)
            * (1 - max 0 (dielCosine ps.ray.direction normal)) ^ 5 ∧
    (u > schlickReflectProb ps.ray.direction normal m.indexOfRefraction / 1.5 →
        (scatterRay ps intersect normal m (u :: rest)).1.ray.direction
          = reflectV ps.ray.direction (workingNormal ps.ray.direction normal)) ∧
    (¬ u > schlickReflectProb ps.ray.direction normal m.indexOfRefraction / 1.5 →
        (scatterRay ps intersect normal m (u :: rest)).1.ray.direction
          = normalizeV (refractV ps.ray.direction (workingNormal ps.ray.direction normal)
              (niOverNt ps.ray.direction normal m.indexOfRefraction))) := by
  rw [scatterRay_diel_fresnel_eq ps intersect normal m u rest hRefl hRefr hdisc]
  by_cases hu : u > schlickReflectProb ps.ray.direction normal m.indexOfRefraction / 1.5
  · rw [if_pos hu]
    refine ⟨rfl, rfl, rfl, ?_, fun _ => rfl, fun h => absurd hu h⟩
    simp only [schlickReflectProb]
    ring
  · rw [if_neg hu]
    refine ⟨rfl, rfl, rfl, ?_, fun h => absurd h hu, fun _ => rfl⟩
    simp only [schlickReflectProb]
    ring

/-- Witness for C1: a ray entering glass head-on (direction `(0,0,-1)`,
normal `(0,0,1)`, index 1.5) has discriminant 1 and Schlick reflectance 1;
the draw `u = 9/10` exceeds `1/1.5`, so reflection is chosen, the stream
advances past exactly one draw, and the bounce budget drops to 4. -/
theorem scatterRay_dielectric_schlick_split_witness :
    (scatterRay
        { seg0 with ray := { origin := ⟨0, 0, 0⟩, direction := ⟨0, 0, -1⟩ } }
        ⟨0, 0, 0⟩ ⟨0, 0, 1⟩ mGlass [9 / 10]).2 = [] ∧
    (scatterRay
        { seg0 with ray := { origin := ⟨0, 0, 0⟩, direction := ⟨0, 0, -1⟩ } }
        ⟨0, 0, 0⟩ ⟨0, 0, 1⟩ mGlass [9 / 10]).1.remainingBounces = 4 ∧
    (scatterRay
        { seg0 with ray := { origin := ⟨0, 0, 0⟩, direction := ⟨0, 0, -1⟩ } }
        ⟨0, 0, 0⟩ ⟨0, 0, 1⟩ mGlass [9 / 10]).1.ray.direction = ⟨0, 0, 1⟩ := by
  have hsp : schlickReflectProb (⟨0, 0, -1⟩ : Vec3) ⟨0, 0, 1⟩ mGlass.indexOfRefraction = 1 := by
    norm_num [schlickReflectProb, niOverNt, dielCosine, workingNormal, dotV, smulV, mGlass]
  have h := scatterRay_dielectric_schlick_split
    { seg0 with ray := { origin := ⟨0, 0, 0⟩, direction := ⟨0, 0, -1⟩ } }
    ⟨0, 0, 0⟩ ⟨0, 0, 1⟩ mGlass (9 / 10) [] rfl rfl
    (by norm_num [dielDiscriminant, niOverNt, dielCosine, workingNormal, dotV, smulV, mGlass])
  refine ⟨h.1, by rw [h.2.2.1]; rfl, ?_⟩
  have hdir := h.2.2.2.2.1 (by rw [hsp]; norm_num)
  rw [hdir]
  have hw : workingNormal (⟨0, 0, -1⟩ : Vec3) ⟨0, 0, 1⟩ = ⟨0, 0, 1⟩ := by
    rw [workingNormal, if_neg (by norm_num [dotV])]
  rw [hw]
  simp only [reflectV, subV, smulV, dotV]
  ext <;> simp <;> ring_nf

/-- Branch reduction: the degenerate diffuse branch of `scatterRay`
(sampled direction tangent to the surface, `pdf = 0`). -/
theorem scatterRay_diffuse_deg_eq
    (ps : PathSegment) (intersect normal : Vec3) (m : Material) (rng : List ℝ)
    (hRefl : m.hasReflective = 0) (hRefr : m.hasRefractive = 0)
    (hpdf : |dotV normal (calculateRandomDirectionInHemisphere normal rng).1| / Real.pi = 0) :
    scatterRay ps intersect normal m rng =
      ({ ps with remainingBounces := 0, color := ⟨0, 0, 0⟩ },
       (calculateRandomDirectionInHemisphere normal rng).2) := by
  unfold scatterRay
  rw [if_pos ⟨hRefl, hRefr⟩, if_pos hpdf]

/-- Branch reduction: the non-degenerate diffuse branch of `scatterRay`. -/
theorem scatterRay_diffuse_eq
    (ps : PathSegment) (intersect normal : Vec3) (m : Material) (rng : List ℝ)
    (hRefl : m.hasReflective = 0) (hRefr : m.hasRefractive = 0)
    (hpdf : |dotV normal (calculateRandomDirectionInHemisphere normal rng).1| / Real.pi ≠ 0) :
    scatterRay ps intersect normal m rng =
      ({ ps with
          color := cmulV ps.color
            (sdivV (smulV (|dotV normal (calculateRandomDirectionInHemisphere normal rng).1|)
                (sdivV m.color Real.pi))
              (|dotV normal (calculateRandomDirectionInHemisphere normal rng).1| / Real.pi))
          remainingBounces := ps.remainingBounces - 1
          ray := { direction := (calculateRandomDirectionInHemisphere normal rng).1
                   origin := addV intersect (smulV 0.0001 normal) } },
       (calculateRandomDirectionInHemisphere normal rng).2) := by
  unfold scatterRay
  rw [if_pos ⟨hRefl, hRefr⟩, if_neg hpdf]

/-- C5: in the diffuse branch, a sampled direction with `pdf = 0`
terminates the path by setting `remainingBounces` to 0 and the throughput
to `(0,0,0)`; the embedding is total, so no error is raised. -/
theorem scatterRay_diffuse_zero_pdf_terminates
    (ps : PathSegment) (intersect normal : Vec3) (m : Material) (rng : List ℝ)
    (hRefl : m.hasReflective = 0) (hRefr : m.hasRefractive = 0)
    (hpdf : |dotV normal (calculateRandomDirectionInHemisphere normal rng).1| / Real.pi = 0) :
    (scatterRay ps intersect normal m rng).1.remainingBounces = 0 ∧
    (scatterRay ps intersect normal m rng).1.color = ⟨0, 0, 0⟩ := by
  rw [scatterRay_diffuse_deg_eq ps intersect normal m rng hRefl hRefr hpdf]
  exact ⟨rfl, rfl⟩

/-- C9: in the degenerate diffuse case (`pdf = 0`), the segment's ray —
both origin and direction — is left completely unchanged. -/
theorem scatterRay_diffuse_zero_pdf_ray_unchanged
    (ps : PathSegment) (intersect normal : Vec3) (m : Material) (rng : List ℝ)
    (hRefl : m.hasReflective = 0) (hRefr : m.hasRefractive = 0)
    (hpdf : |dotV normal (calculateRandomDirectionInHemisphere normal rng).1| / Real.pi = 0) :
    (scatterRay ps intersect normal m rng).1.ray = ps.ray := by
  rw [scatterRay_diffuse_deg_eq ps intersect normal m rng hRefl hRefr hpdf]

/-- C2: in the non-degenerate diffuse branch the throughput update
`color *= (material.color / pi) * nDotR / pdf` with `pdf = nDotR / pi`
reduces, in exact real arithmetic, to componentwise multiplication by
`material.color`. -/
theorem scatterRay_diffuse_throughput_reduces
    (ps : PathSegment) (intersect normal : Vec3) (m : Material) (rng : List ℝ)
    (hRefl : m.hasReflective = 0) (hRefr : m.hasRefractive = 0)
    (hpdf : |dotV normal (calculateRandomDirectionInHemisphere normal rng).1| / Real.pi ≠ 0) :
    (scatterRay ps intersect normal m rng).1.color = cmulV ps.color m.color := by
  have hnd : |dotV normal (calculateRandomDirectionInHemisphere normal rng).1| ≠ 0 := by
    intro h
    exact hpdf (by rw [h, zero_div])
  rw [scatterRay_diffuse_eq ps intersect normal m rng hRefl hRefr hpdf]
  show cmulV ps.color _ = cmulV ps.color m.color
  have harg :
      sdivV (smulV (|dotV normal (calculateRandomDirectionInHemisphere normal rng).1|)
          (sdivV m.color Real.pi))
        (|dotV normal (calculateRandomDirectionInHemisphere normal rng).1| / Real.pi)
        = m.color := by
    ext <;> (simp only [sdivV, smulV]; field_simp)
  rw [harg]

/-- Evaluation of the hemisphere sampler at normal `(0,0,1)` with draws
`[1, 0]`: the sampled direction is the normal itself. -/
theorem hemisphere_eval_one :
    calculateRandomDirectionInHemisphere ⟨0, 0, 1⟩ [1, 0] = (⟨0, 0, 1⟩, []) := by
  simp only [calculateRandomDirectionInHemisphere, hemisphereDir, directionNotNormalOf,
    drawU, List.headD_cons, List.tail_cons]
  norm_num [normalizeV, crossV, dotV, smulV, addV, Real.sqrt_pos, Real.sqrt_one, Real.sqrt_zero]

/-- Evaluation of the hemisphere sampler at normal `(0,0,1)` with draws
`[0, 0]`: the sampled direction is the tangent `(0,1,0)`. -/
theorem hemisphere_eval_zero :
    calculateRandomDirectionInHemisphere ⟨0, 0, 1⟩ [0, 0] = (⟨0, 1, 0⟩, []) := by
  simp only [calculateRandomDirectionInHemisphere, hemisphereDir, directionNotNormalOf,
    drawU, List.headD_cons, List.tail_cons]
  norm_num [normalizeV, crossV, dotV, smulV, addV, Real.sqrt_pos, Real.sqrt_one, Real.sqrt_zero]

/-- Witness for C2: with normal `(0,0,1)` and draws `[1,0]` the sampled
direction is the normal, `pdf = 1/pi ≠ 0`, and the throughput of `seg0`
is multiplied exactly by `mDiffuse.color`. -/
theorem scatterRay_diffuse_throughput_reduces_witness :
    (scatterRay seg0 ⟨0, 0, 0⟩ ⟨0, 0, 1⟩ mDiffuse [1, 0]).1.color
      = cmulV seg0.color mDiffuse.color :=
  scatterRay_diffuse_throughput_reduces seg0 ⟨0, 0, 0⟩ ⟨0, 0, 1⟩ mDiffuse [1, 0] rfl rfl
    (by
      rw [hemisphere_eval_one]
      exact div_ne_zero (by norm_num [dotV]) Real.pi_ne_zero)

/-- Witness for C5: with normal `(0,0,1)` and draws `[0,0]` the sampled
direction is tangent, `pdf = 0`, and the path is terminated with zero
color. -/
theorem scatterRay_diffuse_zero_pdf_terminates_witness :
    (scatterRay seg0 ⟨0, 0, 0⟩ ⟨0, 0, 1⟩ mDiffuse [0, 0]).1.remainingBounces = 0 ∧
    (scatterRay seg0 ⟨0, 0, 0⟩ ⟨0, 0, 1⟩ mDiffuse [0, 0]).1.color = ⟨0, 0, 0⟩ :=
  scatterRay_diffuse_zero_pdf_terminates seg0 ⟨0, 0, 0⟩ ⟨0, 0, 1⟩ mDiffuse [0, 0] rfl rfl
    (by rw [hemisphere_eval_zero]; norm_num [dotV])

/-- Witness for C9: in the same degenerate configuration the ray of `seg0`
is untouched. -/
theorem scatterRay_diffuse_zero_pdf_ray_unchanged_witness :
    (scatterRay seg0 ⟨0, 0, 0⟩ ⟨0, 0, 1⟩ mDiffuse [0, 0]).1.ray = seg0.ray :=
  scatterRay_diffuse_zero_pdf_ray_unchanged seg0 ⟨0, 0, 0⟩ ⟨0, 0, 1⟩ mDiffuse [0, 0] rfl rfl
    (by rw [hemisphere_eval_zero]; norm_num [dotV])

/-- The cross product is orthogonal to its first factor. -/
theorem dotV_cross_left (a b : Vec3) : dotV (crossV a b) a = 0 := by
  simp only [dotV, crossV]
  ring

/-- The cross product is orthogonal to its second factor. -/
theorem dotV_cross_right (a b : Vec3) : dotV (crossV a b) b = 0 := by
  simp only [dotV, crossV]
  ring

/-- The inner product is symmetric. -/
theorem dotV_comm (a b : Vec3) : dotV a b = dotV b a := by
  simp only [dotV]
  ring

/-- Lagrange identity for the squared norm of the 3D cross product. -/
theorem dotV_cross_self (a b : Vec3) :
    dotV (crossV a b) (crossV a b) = dotV a a * dotV b b - dotV a b * dotV a b := by
  simp only [dotV, crossV]
  ring

/-- Bilinearity helper for scaled vectors. -/
theorem dotV_smul_smul (s t : ℝ) (a b : Vec3) :
    dotV (smulV s a) (smulV t b) = s * t * dotV a b := by
  simp only [dotV, smulV]
  ring

/-- Inner product of a normalized vector with another vector. -/
theorem dotV_normalize_other (v w : Vec3) :
    dotV (normalizeV v) w = 1 / Real.sqrt (dotV v v) * dotV v w := by
  simp only [normalizeV, smulV, dotV]
  ring

/-- A vector of positive squared norm normalizes to a unit vector. -/
theorem dotV_normalize_self (v : Vec3) (h : 0 < dotV v v) :
    dotV (normalizeV v) (normalizeV v) = 1 := by
  have hs : Real.sqrt (dotV v v) ≠ 0 := ne_of_gt (Real.sqrt_pos.mpr h)
  rw [normalizeV, dotV_smul_smul]
  field_simp

/-- Inner product of a three-term orthonormal combination with the first
basis vector. -/
theorem dotV_comb3_left (a b c : ℝ) (u v w q : Vec3) :
    dotV (addV (addV (smulV a u) (smulV b v)) (smulV c w)) q
      = a * dotV u q + b * dotV v q + c * dotV w q := by
  simp only [dotV, addV, smulV]
  ring

/-- Squared norm of a three-term combination, expanded bilinearly. -/
theorem dotV_comb3_self (a b c : ℝ) (u v w : Vec3) :
    dotV (addV (addV (smulV a u) (smulV b v)) (smulV c w))
         (addV (addV (smulV a u) (smulV b v)) (smulV c w))
      = a * a * dotV u u + b * b * dotV v v + c * c * dotV w w
        + 2 * (a * b) * dotV u v + 2 * (a * c) * dotV u w + 2 * (b * c) * dotV v w := by
  simp only [dotV, addV, smulV]
  ring

/-- For an orthonormal frame `(n, p1, p2)` and angles with
`ca^2 + sa^2 = 1`, `up^2 + over^2 = 1`, the combination
`up*n + ca*over*p1 + sa*over*p2` has inner product `up` with `n` and unit
squared norm. -/
theorem orthoframe_dot (up over ca sa : ℝ) (n p1 p2 : Vec3)
    (hn : dotV n n = 1) (hp1 : dotV p1 p1 = 1) (hp2 : dotV p2 p2 = 1)
    (h1 : dotV n p1 = 0) (h2 : dotV n p2 = 0) (h3 : dotV p1 p2 = 0)
    (hcs : ca * ca + sa * sa = 1) (hup : up * up + over * over = 1) :
    dotV (addV (addV (smulV up n) (smulV (ca * over) p1)) (smulV (sa * over) p2)) n = up ∧
    dotV (addV (addV (smulV up n) (smulV (ca * over) p1)) (smulV (sa * over) p2))
         (addV (addV (smulV up n) (smulV (ca * over) p1)) (smulV (sa * over) p2)) = 1 := by
  constructor
  · rw [dotV_comb3_left, hn, dotV_comm p1 n, h1, dotV_comm p2 n, h2]
    ring
  · rw [dotV_comb3_self, hn, hp1, hp2, h1, h2, h3]
    linear_combination over * over * hcs + hup

/-- The axis vector chosen by the sampler is never parallel to a unit
normal: the cross product with it has strictly positive squared norm. -/
theorem cross_dnn_pos (n : Vec3) (hn : dotV n n = 1) :
    0 < dotV (crossV n (directionNotNormalOf n)) (crossV n (directionNotNormalOf n)) := by
  have h13 : Real.sqrt (1 / 3) * Real.sqrt (1 / 3) = 1 / 3 := Real.mul_self_sqrt (by norm_num)
  simp only [dotV] at hn
  rw [directionNotNormalOf]
  by_cases hx : |n.x| < Real.sqrt (1 / 3)
  · rw [if_pos hx]
    have h1 : |n.x| * |n.x| < Real.sqrt (1 / 3) * Real.sqrt (1 / 3) :=
      mul_lt_mul' hx.le hx (abs_nonneg _) (lt_of_le_of_lt (abs_nonneg _) hx)
    rw [abs_mul_abs_self, h13] at h1
    simp only [crossV, dotV]
    nlinarith
  · rw [if_neg hx]
    by_cases hy : |n.y| < Real.sqrt (1 / 3)
    · rw [if_pos hy]
      have h1 : |n.y| * |n.y| < Real.sqrt (1 / 3) * Real.sqrt (1 / 3) :=
        mul_lt_mul' hy.le hy (abs_nonneg _) (lt_of_le_of_lt (abs_nonneg _) hy)
      rw [abs_mul_abs_self, h13] at h1
      simp only [crossV, dotV]
      nlinarith
    · rw [if_neg hy]
      have h1 : Real.sqrt (1 / 3) * Real.sqrt (1 / 3) ≤ |n.x| * |n.x| :=
        mul_le_mul (not_lt.mp hx) (not_lt.mp hx) (Real.sqrt_nonneg _) (abs_nonneg _)
      rw [abs_mul_abs_self, h13] at h1
      simp only [crossV, dotV]
      nlinarith

/-- Core property of the hemisphere sampler: for a unit normal and first
draw in `[0,1]`, the produced direction has inner product `sqrt r1` with
the normal and unit squared norm, in exact real arithmetic. -/
theorem hemisphereDir_props (n : Vec3) (r1 r2 : ℝ)
    (hn : dotV n n = 1) (h0 : 0 ≤ r1) (h1 : r1 ≤ 1) :
    dotV (hemisphereDir n r1 r2) n = Real.sqrt r1 ∧
    dotV (hemisphereDir n r1 r2) (hemisphereDir n r1 r2) = 1 := by
  have hq1 := cross_dnn_pos n hn
  have hp1p1 : dotV (normalizeV (crossV n (directionNotNormalOf n)))
      (normalizeV (crossV n (directionNotNormalOf n))) = 1 := dotV_normalize_self _ hq1
  have hp1n : dotV n (normalizeV (crossV n (directionNotNormalOf n))) = 0 := by
    rw [dotV_comm, dotV_normalize_other, dotV_cross_left, mul_zero]
  have hc2 : dotV (crossV n (normalizeV (crossV n (directionNotNormalOf n))))
      (crossV n (normalizeV (crossV n (directionNotNormalOf n)))) = 1 := by
    rw [dotV_cross_self, hn, hp1p1, hp1n]
    ring
  have hp2p2 : dotV (normalizeV (crossV n (normalizeV (crossV n (directionNotNormalOf n)))))
      (normalizeV (crossV n (normalizeV (crossV n (directionNotNormalOf n))))) = 1 :=
    dotV_normalize_self _ (by rw [hc2]; norm_num)
  have hp2n : dotV n
      (normalizeV (crossV n (normalizeV (crossV n (directionNotNormalOf n))))) = 0 := by
    rw [dotV_comm, dotV_normalize_other, dotV_cross_left, mul_zero]
  have hp1p2 : dotV (normalizeV (crossV n (directionNotNormalOf n)))
      (normalizeV (crossV n (normalizeV (crossV n (directionNotNormalOf n))))) = 0 := by
    rw [dotV_comm, dotV_normalize_other, dotV_cross_right, mul_zero]
  have hup : Real.sqrt r1 * Real.sqrt r1
      + Real.sqrt (1 - Real.sqrt r1 * Real.sqrt r1)
        * Real.sqrt (1 - Real.sqrt r1 * Real.sqrt r1) = 1 := by
    rw [Real.mul_self_sqrt h0, Real.mul_self_sqrt (by linarith)]
    ring
  have hcs : Real.cos (r2 * (2 * Real.pi)) * Real.cos (r2 * (2 * Real.pi))
      + Real.sin (r2 * (2 * Real.pi)) * Real.sin (r2 * (2 * Real.pi)) = 1 := by
    have h := Real.sin_sq_add_cos_sq (r2 * (2 * Real.pi))
    rw [pow_two, pow_two] at h
    linarith
  have hd : hemisphereDir n r1 r2 = addV (addV (smulV (Real.sqrt r1) n)
      (smulV (Real.cos (r2 * (2 * Real.pi)) * Real.sqrt (1 - Real.sqrt r1 * Real.sqrt r1))
        (normalizeV (crossV n (directionNotNormalOf n)))))
      (smulV (Real.sin (r2 * (2 * Real.pi)) * Real.sqrt (1 - Real.sqrt r1 * Real.sqrt r1))
        (normalizeV (crossV n (normalizeV (crossV n (directionNotNormalOf n)))))) := by
    simp only [hemisphereDir]
  rw [hd]
  exact orthoframe_dot (Real.sqrt r1) (Real.sqrt (1 - Real.sqrt r1 * Real.sqrt r1))
    (Real.cos (r2 * (2 * Real.pi))) (Real.sin (r2 * (2 * Real.pi))) n
    (normalizeV (crossV n (directionNotNormalOf n)))
    (normalizeV (crossV n (normalizeV (crossV n (directionNotNormalOf n)))))
    hn hp1p1 hp2p2 hp1n hp2n hp1p2 hcs hup

/-- C6: for every unit normal `n` and uniforms `u1, u2` in `[0,1)`, the
direction returned by the hemisphere sampler has inner product
`sqrt u1 ≥ 0` with `n` and norm exactly 1, in exact real arithmetic. -/
theorem hemisphere_sample_dot_and_unit
    (n : Vec3) (u1 u2 : ℝ) (rest : List ℝ)
    (hn : dotV n n = 1) (h0 : 0 ≤ u1) (h1 : u1 < 1) (h2 : 0 ≤ u2) (h3 : u2 < 1) :
    dotV (calculateRandomDirectionInHemisphere n (u1 :: u2 :: rest)).1 n = Real.sqrt u1 ∧
    0 ≤ dotV (calculateRandomDirectionInHemisphere n (u1 :: u2 :: rest)).1 n ∧
    Real.sqrt (dotV (calculateRandomDirectionInHemisphere n (u1 :: u2 :: rest)).1
        (calculateRandomDirectionInHemisphere n (u1 :: u2 :: rest)).1) = 1 := by
  have hfst : (calculateRandomDirectionInHemisphere n (u1 :: u2 :: rest)).1
      = hemisphereDir n u1 u2 := rfl
  obtain ⟨ha, hb⟩ := hemisphereDir_props n u1 u2 hn h0 h1.le
  rw [hfst, ha, hb]
  exact ⟨rfl, Real.sqrt_nonneg u1, Real.sqrt_one⟩

/-- Witness for C6: at normal `(0,0,1)` and draws `u1 = u2 = 0`, the
sampled direction is orthogonal to the normal (`sqrt 0`) and has unit
norm. -/
theorem hemisphere_sample_dot_and_unit_witness :
    dotV (calculateRandomDirectionInHemisphere ⟨0, 0, 1⟩ [0, 0]).1 ⟨0, 0, 1⟩
        = Real.sqrt 0 ∧
    0 ≤ dotV (calculateRandomDirectionInHemisphere ⟨0, 0, 1⟩ [0, 0]).1 ⟨0, 0, 1⟩ ∧
    Real.sqrt (dotV (calculateRandomDirectionInHemisphere ⟨0, 0, 1⟩ [0, 0]).1
        (calculateRandomDirectionInHemisphere ⟨0, 0, 1⟩ [0, 0]).1) = 1 :=
  hemisphere_sample_dot_and_unit ⟨0, 0, 1⟩ 0 0 [] (by norm_num [dotV]) le_rfl
    (by norm_num) le_rfl (by norm_num)

/-- Componentwise non-negativity of a vector. -/
def nonnegV (v : Vec3) : Prop := 0 ≤ v.x ∧ 0 ≤ v.y ∧ 0 ≤ v.z

/-- One channel of the diffuse throughput update is non-negative. -/
theorem diffuse_channel_nonneg (cx mx nd : ℝ) (hcx : 0 ≤ cx) (hmx : 0 ≤ mx)
    (hnd : 0 ≤ nd) :
    0 ≤ cx * (nd * (mx / Real.pi) / (nd / Real.pi)) :=
  mul_nonneg hcx (div_nonneg (mul_nonneg hnd (div_nonneg hmx Real.pi_pos.le))
    (div_nonneg hnd Real.pi_pos.le))

/-- C10: `scatterRay` preserves non-negativity of the throughput: when the
incoming color and both material colors are componentwise non-negative,
the outgoing color is componentwise non-negative in every branch. -/
theorem scatterRay_diel_fresnel_eq_any
    (ps : PathSegment) (intersect normal : Vec3) (m : Material) (rng : List ℝ)
    (hRefl : m.hasReflective = 1) (hRefr : m.hasRefractive = 1)
    (hdisc : dielDiscriminant ps.ray.direction normal m.indexOfRefraction > 0) :
    scatterRay ps intersect normal m rng =
      if rng.headD 0 > schlickReflectProb ps.ray.direction normal m.indexOfRefraction / 1.5 then
        ({ ps with
            color := cmulV ps.color m.specular.color
            remainingBounces := ps.remainingBounces - 1
            ray := { direction :=
                       reflectV ps.ray.direction (workingNormal ps.ray.direction normal)
                     origin := addV intersect
                       (smulV 0.01 (workingNormal ps.ray.direction normal)) } }, rng.tail)
      else
        ({ ps with
            color := cmulV ps.color m.specular.color
            remainingBounces := ps.remainingBounces - 1
            ray := { direction :=
                       normalizeV (refractV ps.ray.direction
                         (workingNormal ps.ray.direction normal)
                         (niOverNt ps.ray.direction normal m.indexOfRefraction))
                     origin := addV intersect
                       (smulV 0.01 (refractV ps.ray.direction
                         (workingNormal ps.ray.direction normal)
                         (niOverNt ps.ray.direction normal m.indexOfRefraction))) } },
         rng.tail) := by
  unfold scatterRay
  rw [if_neg (by simp [hRefl]), if_neg (by simp [hRefr]), if_pos ⟨hRefl, hRefr⟩,
    if_pos hdisc]
  simp only [drawU]

theorem scatterRay_color_nonneg
    (ps : PathSegment) (intersect normal : Vec3) (m : Material) (rng : List ℝ)
    (hc : nonnegV ps.color) (hm : nonnegV m.color) (hs : nonnegV m.specular.color) :
    nonnegV (scatterRay ps intersect normal m rng).1.color := by
  by_cases hf1 : m.hasReflective = 0 ∧ m.hasRefractive = 0
  · by_cases hpdf :
        |dotV normal (calculateRandomDirectionInHemisphere normal rng).1| / Real.pi = 0
    · rw [scatterRay_diffuse_deg_eq ps intersect normal m rng hf1.1 hf1.2 hpdf]
      exact ⟨le_refl 0, le_refl 0, le_refl 0⟩
    · rw [scatterRay_diffuse_eq ps intersect normal m rng hf1.1 hf1.2 hpdf]
      exact ⟨diffuse_channel_nonneg _ _ _ hc.1 hm.1 (abs_nonneg _),
        diffuse_channel_nonneg _ _ _ hc.2.1 hm.2.1 (abs_nonneg _),
        diffuse_channel_nonneg _ _ _ hc.2.2 hm.2.2 (abs_nonneg _)⟩
  · by_cases hf2 : m.hasReflective = 1 ∧ m.hasRefractive = 0
    · rw [scatterRay_mirror_eq ps intersect normal m rng hf2.1 hf2.2]
      exact ⟨mul_nonneg hc.1 hs.1, mul_nonneg hc.2.1 hs.2.1, mul_nonneg hc.2.2 hs.2.2⟩
    · by_cases hf3 : m.hasReflective = 1 ∧ m.hasRefractive = 1
      · by_cases hdisc :
            dielDiscriminant ps.ray.direction normal m.indexOfRefraction > 0
        · rw [scatterRay_diel_fresnel_eq_any ps intersect normal m rng hf3.1 hf3.2 hdisc]
          by_cases hu : rng.headD 0
              > schlickReflectProb ps.ray.direction normal m.indexOfRefraction / 1.5
          · rw [if_pos hu]
            exact ⟨mul_nonneg hc.1 hs.1, mul_nonneg hc.2.1 hs.2.1,
              mul_nonneg hc.2.2 hs.2.2⟩
          · rw [if_neg hu]
            exact ⟨mul_nonneg hc.1 hs.1, mul_nonneg hc.2.1 hs.2.1,
              mul_nonneg hc.2.2 hs.2.2⟩
        · rw [scatterRay_tir_eq ps intersect normal m rng hf3.1 hf3.2 (not_lt.mp hdisc)]
          exact ⟨le_refl 0, le_refl 0, le_refl 0⟩
      · rw [scatterRay_nomatch_eq ps intersect normal m rng hf1 hf2 hf3]
        exact hc

/-- Witness for C10: a concrete diffuse scatter from non-negative inputs
keeps the throughput non-negative. -/
theorem scatterRay_color_nonneg_witness :
    nonnegV (scatterRay seg0 ⟨0, 0, 0⟩ ⟨0, 0, 1⟩ mDiffuse [1, 0]).1.color :=
  scatterRay_color_nonneg seg0 ⟨0, 0, 0⟩ ⟨0, 0, 1⟩ mDiffuse [1, 0]
    (by norm_num [nonnegV, seg0]) (by norm_num [nonnegV, mDiffuse])
    (by norm_num [nonnegV, mDiffuse])
